import Mathlib

/-!
Verification of the fxx compile-time sequence-algebra library.

The library manipulates statically sized heterogeneous sequences (std::tuple)
in two parallel forms: a type-level form (fxx::meta, computing only the
result's element-kind sequence) and a value-level form (fxx::tuple, actually
rearranging live values).  Both forms are embedded shallowly here:

* a type-level tuple type `std::tuple<T...>` becomes a `List α` of element
  kinds (the embedding is polymorphic in the kind type `α`);
* a value-level tuple becomes a `List` of elements; for the ownership /
  storage-identity properties the element type `Elem` records the ownership
  category together with the referent address of reference elements;
* an ill-formed template instantiation (out-of-range index, reduction of a
  0-tuple, missing specialization) becomes `Option.none`: fallible
  compile-time computations return `Option`.

Each definition is a direct transcription of one template from the sources,
named after it.
-/

/-- Ownership category of a sequence element kind: an owned value
(`std::tuple<..., T, ...>`), a mutable lvalue-reference alias (`T&`), or a
transient rvalue-reference alias (`T&&`). -/
inductive EKind where
  | value : EKind
  | lref : EKind
  | rref : EKind
deriving DecidableEq, Repr

/-- A value-level tuple element.  `owned v` is an element the tuple owns (an
independent copy holding `v`); `mref a` is an lvalue-reference element
aliasing the storage location `a`; `tref a` is an rvalue-reference element
aliasing the storage location `a`.  Copying an element descriptor models what
`std::tuple<E>(std::get<I>(t))` does: for reference kinds the new element
binds to the same referent, for owned kinds it is an independent value copy. -/
inductive Elem where
  | owned : Int → Elem
  | mref : Nat → Elem
  | tref : Nat → Elem
deriving DecidableEq, Repr

instance : Inhabited Elem := ⟨Elem.owned 0⟩

/-- The static kind (ownership category) of an element. -/
def Elem.kind : Elem → EKind
  | .owned _ => .value
  | .mref _ => .lref
  | .tref _ => .rref

/-- Whether the element is a reference (lvalue or rvalue) alias. -/
def Elem.isRef : Elem → Bool
  | .owned _ => false
  | .mref _ => true
  | .tref _ => true

/-- The address of the storage an element aliases (`none` for owned
elements, whose storage is inside the tuple itself). -/
def Elem.addr : Elem → Option Nat
  | .owned _ => none
  | .mref a => some a
  | .tref a => some a

/-! ## Type-level sequence algebra (include/fxx/meta/tuple.h)

`detail::tuple_cat_impl`: abort cases for zero and one tuples, recursive
case folds the two leading tuples into one. -/

/-- Embedding of `fxx::meta::detail::tuple_cat_impl` /`tuple_cat_t`:
concatenate a list of tuples (kind lists). -/
def tuple_cat_impl {α : Type _} : List (List α) → List α
  | [] => []
  | [t] => t
  | l :: r :: rest => tuple_cat_impl ((l ++ r) :: rest)
termination_by ts => ts.length

/-- Embedding of `fxx::meta::detail::tuple_flip_impl` / `tuple_flip_t`:
the recursive case concatenates the flipped tail with the singleton head. -/
def tuple_flip_impl {α : Type _} : List α → List α
  | [] => []
  | h :: t => tuple_cat_impl [tuple_flip_impl t, [h]]

/-- Embedding of `fxx::meta::detail::tuple_pick_impl` / `tuple_pick_t`: the
recursive case concatenates the singleton `std::tuple_element_t<Head, Tuple>`
with the pick of the tail indices; an out-of-range index makes the
instantiation ill-formed (`none`). -/
def tuple_pick_impl {α : Type _} (ks : List α) : List Nat → Option (List α)
  | [] => some []
  | h :: t =>
    match ks[h]?, tuple_pick_impl ks t with
    | some e, some suffix => some (tuple_cat_impl [[e], suffix])
    | _, _ => none

/-- Embedding of `fxx::meta::detail::tuple_skip_one`: drop the first element;
there is no specialization for the 0-tuple (it is commented out in the
source), so skipping past the end is ill-formed. -/
def tuple_skip_one {α : Type _} : List α → Option (List α)
  | [] => none
  | _ :: t => some t

/-- Embedding of `fxx::meta::detail::tuple_skip_impl` / `tuple_skip_t`:
apply `tuple_skip_one` to the input, then recurse with `N-1` on the result. -/
def tuple_skip_impl {α : Type _} : Nat → List α → Option (List α)
  | 0, ks => some ks
  | n + 1, ks =>
    match tuple_skip_one ks with
    | some prefix_ => tuple_skip_impl n prefix_
    | none => none

/-- Embedding of `fxx::meta::detail::tuple_take_one`: the singleton of the
first element; no specialization for the 0-tuple (commented out). -/
def tuple_take_one {α : Type _} : List α → Option (List α)
  | [] => none
  | h :: _ => some [h]

/-- Embedding of `fxx::meta::detail::tuple_take_impl` / `tuple_take_t`:
concatenate `tuple_take_one` of the input with the take of `N-1` from
`tuple_skip_one` of the input. -/
def tuple_take_impl {α : Type _} : Nat → List α → Option (List α)
  | 0, _ => some []
  | n + 1, ks =>
    match tuple_take_one ks, tuple_skip_one ks with
    | some p, some s =>
      match tuple_take_impl n s with
      | some r => some (tuple_cat_impl [p, r])
      | none => none
    | _, _ => none

/-- Embedding of `fxx::meta::tuple_slice_t`: an alias for
`tuple_take_t<Length, tuple_skip_t<Start, Tuple>>`. -/
def tuple_slice_t {α : Type _} (start len : Nat) (ks : List α) : Option (List α) :=
  match tuple_skip_impl start ks with
  | some skipped => tuple_take_impl len skipped
  | none => none

/-- Embedding of `fxx::meta::detail::tuple_reduce_impl`: at `N = 1` the
result is `std::tuple_element_t<0, Tuple>`; at `N > 1` it is
`Fn<pred, std::tuple_element_t<N-1, Tuple>>` with `pred` the reduction at
`N-1`.  `N = 0` has no terminating specialization, hence ill-formed. -/
def tuple_reduce_impl {α : Type _} (fn : α → α → α) (ks : List α) : Nat → Option α
  | 0 => none
  | 1 => ks[0]?
  | n + 2 =>
    match tuple_reduce_impl fn ks (n + 1), ks[n + 1]? with
    | some pred, some cur => some (fn pred cur)
    | _, _ => none

/-- Embedding of `fxx::meta::tuple_reduce_t`: `tuple_reduce_impl` at
`N = std::tuple_size_v<Tuple>`. -/
def tuple_reduce_t {α : Type _} (fn : α → α → α) (ks : List α) : Option α :=
  tuple_reduce_impl fn ks ks.length

/-- Embedding of `fxx::meta::tuple_fold_t`: an alias for
`tuple_reduce_t<Fn, tuple_cat_t<std::tuple<Init>, Tuple>>`. -/
def tuple_fold_t {α : Type _} (fn : α → α → α) (init : α) (ks : List α) : Option α :=
  tuple_reduce_t fn (tuple_cat_impl [[init], ks])

/-! ## Value-level sequence algebra (include/fxx/tuple, pick.h, flip.h) -/

/-- Embedding of `fxx::tuple::pick_f`: the recursive case returns
`std::tuple_cat` of the singleton `std::tuple<std::tuple_element_t<Head,
Tuple>>(std::get<Head>(tuple))` — which for a reference element binds a new
reference to the same referent, and for an owned element copies it — with the
pick of the tail indices; the abort case returns the empty tuple.  An
out-of-range index is an ill-formed `std::get`, hence `none`. -/
def pick_f {α : Type _} : List Nat → List α → Option (List α)
  | [], _ => some []
  | h :: t, es =>
    match es[h]?, pick_f t es with
    | some e, some rest => some (e :: rest)
    | _, _ => none

/-- Embedding of the recursion of `fxx::tuple::flip_f::operator()` on its
template parameter `N`: at `N = 0` the empty tuple, otherwise
`std::tuple_cat` of the singleton element `N-1` with the recursion at `N-1`
over the same tuple. -/
def flip_go {α : Type _} (es : List α) : Nat → Option (List α)
  | 0 => some []
  | n + 1 =>
    match es[n]?, flip_go es n with
    | some e, some rest => some (e :: rest)
    | _, _ => none

/-- Embedding of `fxx::tuple::flip_f` applied to a tuple: the recursion
starts at `N = std::tuple_size_v<Tuple>`. -/
def flip_f {α : Type _} (es : List α) : Option (List α) :=
  flip_go es es.length

/-- Embedding of `fxx::tuple::detail::reduce_impl`: the `reduce_impl<1>`
abort case returns `std::get<0>(tuple)`; the recursive case returns
`fn(reduce_impl<N-1>::reduce(fn, tuple), std::get<N-1>(tuple))`.  `N = 0`
fails the `static_assert` ("0-Tuple is irreducible!"), hence `none`. -/
def reduce_impl {α : Type _} (fn : α → α → α) (t : List α) : Nat → Option α
  | 0 => none
  | 1 => t[0]?
  | n + 2 =>
    match reduce_impl fn t (n + 1), t[n + 1]? with
    | some p, some x => some (fn p x)
    | _, _ => none

/-- Embedding of `fxx::tuple::reduce_f` / `fxx::tuple::reduce`: dispatch to
`detail::reduce_impl<std::tuple_size_v<Tuple>>`. -/
def reduce_f {α : Type _} (fn : α → α → α) (t : List α) : Option α :=
  reduce_impl fn t t.length

/-- Embedding of `fxx::tuple::detail::fold_impl`: the `fold_impl<0>` abort
case forwards `init` unchanged; the recursive case returns
`fn(fold_impl<N-1>::fold(fn, init, tuple), std::get<N-1>(tuple))`. -/
def fold_impl {α β : Type _} (fn : β → α → β) (init : β) (t : List α) : Nat → Option β
  | 0 => some init
  | n + 1 =>
    match fold_impl fn init t n, t[n]? with
    | some p, some x => some (fn p x)
    | _, _ => none

/-- Embedding of `fxx::tuple::fold_f` / `fxx::tuple::fold`: dispatch to
`detail::fold_impl<std::tuple_size_v<Tuple>>`. -/
def fold_f {α β : Type _} (fn : β → α → β) (init : β) (t : List α) : Option β :=
  fold_impl fn init t t.length

/-! ## Value-level search (include/fxx/tuple/first.h, find.h)

`detail::first_impl<Offset>` is an overload pair selected by
`std::enable_if_t`: when `tuple_size <= Offset` it returns `std::nullopt`
with the static result type `std::nullopt_t` itself; otherwise the result
type is `std::optional<std::size_t>` and the body tests the predicate on
`std::get<Offset>` and recurses at `Offset + 1`, implicitly converting a
`std::nullopt_t` result of the recursion into a disengaged optional. -/

/-- The static result of `first` / `find`: either a value of type
`std::nullopt_t` itself (the overload chosen past the end of the tuple), or
a value of type `std::optional<std::size_t>`. -/
inductive FirstRet where
  | nulloptT : FirstRet
  | opt : Option Nat → FirstRet
deriving DecidableEq, Repr

/-- The implicit conversion of either result into
`std::optional<std::size_t>` (a `std::nullopt_t` converts to the disengaged
optional), performed by the recursive overload's return statement. -/
def FirstRet.toOptional : FirstRet → Option Nat
  | .nulloptT => none
  | .opt o => o

/-- Embedding of `fxx::tuple::detail::first_impl`. -/
def first_impl {α : Type _} (pred : α → Bool) (es : List α) (off : Nat) : FirstRet :=
  if h : es.length ≤ off then
    FirstRet.nulloptT
  else if pred (es.get ⟨off, Nat.lt_of_not_le h⟩) then
    FirstRet.opt (some off)
  else
    FirstRet.opt (first_impl pred es (off + 1)).toOptional
termination_by es.length - off
decreasing_by
  simp only [not_le] at h
  omega

/-- Embedding of `fxx::tuple::first_f` / `fxx::tuple::first`: dispatch to
`detail::first_impl<0>`. -/
def first_f {α : Type _} (pred : α → Bool) (es : List α) : FirstRet :=
  first_impl pred es 0

/-- Embedding of `fxx::tuple::find_f` / `fxx::tuple::find`: `first` with the
predicate `[&value](auto&& x) { return value == x; }`. -/
def find_f {α : Type _} [BEq α] (value : α) (es : List α) : FirstRet :=
  first_f (fun x => value == x) es

/-! ## Index sequences (fxx/meta/indices.h) and the pick-based value-level
skip/take/slice

An `std::index_sequence<Ns...>` is embedded as the `List Nat` of its
elements; `std::make_index_sequence<N>` is `List.range N`, the contiguous
sequence `0, 1, ..., N-1`. -/

/-- Embedding of `fxx::meta::detail::map_index_sequence_impl` /
`fxx::meta::map_index_sequence_t`: a new index sequence of the same length
whose elements are `Fn<Ns>::value...`, the per-element images under the
mapping template. -/
def map_index_sequence_t (fn : Nat → Nat) (seq : List Nat) : List Nat :=
  seq.map fn

/-- Embedding of `fxx::meta::detail::shift_index_impl<Shift>`: the mapping
template `N ↦ std::integral_constant<std::size_t, N + Shift>`. -/
def shift_index_impl (shift n : Nat) : Nat :=
  n + shift

/-- Embedding of `fxx::meta::shift_index_sequence_t<Shift, Seq>`: an alias
for `map_index_sequence_t` at the mapping `detail::shift_index_impl<Shift>`. -/
def shift_index_sequence_t (shift : Nat) (seq : List Nat) : List Nat :=
  map_index_sequence_t (shift_index_impl shift) seq

/-- Embedding of `fxx::meta::make_index_range<Start, Length>`: an alias for
`shift_index_sequence_t<Start, std::make_index_sequence<Length>>`. -/
def make_index_range (start len : Nat) : List Nat :=
  shift_index_sequence_t start (List.range len)

/-- Embedding of `fxx::meta::apply_index_sequence_t<Target, Seq>`
(via `detail::apply_index_sequence_impl`): instantiate `Target` with the
elements of the index sequence `Seq` as positional arguments.  `skip_f`,
`take_f` and `slice_f` instantiate it at `Target = fxx::tuple::pick_f`
only, so the embedding is specialized to that target: it yields the pick
of exactly the sequence's indices. -/
def apply_index_sequence_pick {α : Type _} (ns : List Nat) (es : List α) : Option (List α) :=
  pick_f ns es

/-- Embedding of `fxx::tuple::skip_f`: pick with the index range
`make_index_range<N, std::tuple_size_v<Tuple> - N>`. -/
def skip_f {α : Type _} (n : Nat) (es : List α) : Option (List α) :=
  apply_index_sequence_pick (make_index_range n (es.length - n)) es

/-- Embedding of `fxx::tuple::take_f`: pick with the index sequence
`std::make_index_sequence<N>`, i.e. `[0, 1, ..., N-1]`. -/
def take_f {α : Type _} (n : Nat) (es : List α) : Option (List α) :=
  apply_index_sequence_pick (List.range n) es

/-- Embedding of `fxx::tuple::slice_f`: pick with the index range
`make_index_range<Start, Length>`. -/
def slice_f {α : Type _} (start len : Nat) (es : List α) : Option (List α) :=
  apply_index_sequence_pick (make_index_range start len) es

/-! ## Detection engine (include/fxx/meta/detect.h)

A parametrized operation `Op` is embedded as a function from its argument
kinds to `Option Kind`: `some R` when instantiating `Op` with these
arguments is well-formed with result kind `R`, `none` when the
instantiation is ill-formed.  The kind universe is a fixed set of concrete
C++ types sufficient for the properties below, plus the library's own
`detail::nonesuch`. -/

/-- A concrete universe of C++ type kinds for the detection engine and the
operator-trait catalog: scalar types, a few pointer types with asymmetric
convertibility, `void`, the throwing-constructible class type `Y` of the
detect.h static test block (`Y(int) noexcept(false)`), two callable types
(`operator()` returning `int` resp. `void`), and `fxx::meta::detail::nonesuch`. -/
inductive Kind where
  | kint : Kind
  | kdouble : Kind
  | kbool : Kind
  | kvoid : Kind
  | ptr_int : Kind
  | ptr_const_int : Kind
  | ptr_void : Kind
  | yclass : Kind
  | fn_int : Kind
  | fn_void : Kind
  | nonesuch : Kind
deriving DecidableEq, Repr

/-- Model of `std::is_convertible_v<From, To>` on the kinds above:
arithmetic kinds interconvert, pointers convert to `bool`, `int*` converts
to `void*` and to `const int*` but not conversely, `const int*` does not
convert to `void*`, arithmetic kinds convert to `Y` through `Y(int)`,
`void` converts only to `void`, and `nonesuch` (all constructors deleted)
neither converts to nor from anything, itself included. -/
def conv : Kind → Kind → Bool
  | .kint, .kint | .kint, .kdouble | .kint, .kbool | .kint, .yclass => true
  | .kdouble, .kint | .kdouble, .kdouble | .kdouble, .kbool | .kdouble, .yclass => true
  | .kbool, .kint | .kbool, .kdouble | .kbool, .kbool | .kbool, .yclass => true
  | .kvoid, .kvoid => true
  | .ptr_int, .ptr_int | .ptr_int, .ptr_const_int | .ptr_int, .ptr_void | .ptr_int, .kbool => true
  | .ptr_const_int, .ptr_const_int | .ptr_const_int, .kbool => true
  | .ptr_void, .ptr_void | .ptr_void, .kbool => true
  | .yclass, .yclass => true
  | .fn_int, .fn_int => true
  | .fn_void, .fn_void => true
  | _, _ => false

/-- Model of `std::is_nothrow_convertible_v<From, To>` on the kinds above:
as `conv`, except that conversion into `Y` goes through the
`noexcept(false)` constructor `Y(int)` and is therefore not non-throwing. -/
def nconv (a b : Kind) : Bool :=
  match b with
  | .yclass => a == .yclass
  | _ => conv a b

/-- A parametrized operation for the detection engine: `some R` exactly when
`Op<Args...>` is a well-formed instantiation with result kind `R`. -/
def OpKind : Type := List Kind → Option Kind

/-- Embedding of `fxx::meta::detail::detect_impl`: the partial
specialization on `std::void_t<Op<Args...>>` is selected exactly when the
instantiation is well-formed and yields `value_t = std::true_type` and
`type = Op<Args...>`; otherwise the primary template yields
`value_t = std::false_type` and `type = Default`.  The pair is
(`value_t`, `type`). -/
def detect_impl (dflt : Kind) (op : OpKind) (args : List Kind) : Bool × Kind :=
  match op args with
  | some r => (true, r)
  | none => (false, dflt)

/-- Embedding of `fxx::meta::is_detected` (the `value_t` member, with
`Default = detail::nonesuch`). -/
def is_detected (op : OpKind) (args : List Kind) : Bool :=
  (detect_impl Kind.nonesuch op args).1

/-- Embedding of `fxx::meta::detected_or_t` (the `type` member). -/
def detected_or_t (dflt : Kind) (op : OpKind) (args : List Kind) : Kind :=
  (detect_impl dflt op args).2

/-- Embedding of `fxx::meta::detected_t`:
`detected_or_t<detail::nonesuch, Op, Args...>`. -/
def detected_t (op : OpKind) (args : List Kind) : Kind :=
  detected_or_t Kind.nonesuch op args

/-- Embedding of `fxx::meta::is_detected_exact`:
`std::is_same<detected_t<Op, Args...>, T>`. -/
def is_detected_exact (t : Kind) (op : OpKind) (args : List Kind) : Bool :=
  detected_t op args == t

/-- Embedding of `fxx::meta::is_detected_convertible`:
`std::is_convertible<detected_t<Op, Args...>, To>`. -/
def is_detected_convertible (to_ : Kind) (op : OpKind) (args : List Kind) : Bool :=
  conv (detected_t op args) to_

/-- Embedding of `fxx::meta::is_detected_nothrow_convertible`:
`std::is_nothrow_convertible<detected_t<Op, Args...>, To>`. -/
def is_detected_nothrow_convertible (to_ : Kind) (op : OpKind) (args : List Kind) : Bool :=
  nconv (detected_t op args) to_

/-! ## Operator trait catalog (include/fxx/meta/op.h and its earlier
variant that defines `operator_base` / `operator_info` / `op_call`)

A binary operator is embedded as its result-kind computation
`Lhs → Rhs → Option Kind` (the alias `name_t`, `decltype(declval<Lhs>() op
declval<Rhs>())`); the call operator as `Target → argument kinds → Option
Kind` (the alias `call_t`). -/

/-- Wrap a binary operator result computation `name_t` as a detection-engine
operation over its two operand kinds. -/
def binop_op (opres : Kind → Kind → Option Kind) : OpKind :=
  fun args =>
    match args with
    | [l, r] => opres l r
    | _ => none

/-- Embedding of `has_op_convertible_name` from the `FXX_META_OP_HAS_BINOP`
macro: `is_detected_convertible<To, name_t, Lhs, Rhs>`. -/
def has_op_convertible_binop (opres : Kind → Kind → Option Kind)
    (to_ l r : Kind) : Bool :=
  is_detected_convertible to_ (binop_op opres) [l, r]

/-- Embedding of `has_op_nothrow_convertible_name` from the
`FXX_META_OP_HAS_BINOP` macro:
`is_detected_nothrow_convertible<To, name_t, Lhs, Rhs>`. -/
def has_op_nothrow_convertible_binop (opres : Kind → Kind → Option Kind)
    (to_ l r : Kind) : Bool :=
  is_detected_nothrow_convertible to_ (binop_op opres) [l, r]

/-- Embedding of the `is_convertible` member of the binary `op_name` trait
of the `operator_base` / `operator_info` variant of meta/op.h: when the
operator is well-formed, `op_name<Lhs, Rhs>` inherits `operator_info`,
whose member is `std::is_convertible_v<To, result_type>` — literally in
that argument order; otherwise the `operator_base` fallback member is
`false`. -/
def op_trait_is_convertible (opres : Kind → Kind → Option Kind)
    (l r to_ : Kind) : Bool :=
  match opres l r with
  | some result_type => conv to_ result_type
  | none => false

/-- Embedding of the `is_nothrow_convertible` member of the same trait pair:
`std::is_nothrow_convertible_v<To, result_type>` when well-formed, `false`
otherwise. -/
def op_trait_is_nothrow_convertible (opres : Kind → Kind → Option Kind)
    (l r to_ : Kind) : Bool :=
  match opres l r with
  | some result_type => nconv to_ result_type
  | none => false

/-- Model of the built-in `operator+` result-kind computation `plus_t`
(`decltype(declval<Lhs>() + declval<Rhs>())`) on the kinds above: usual
arithmetic conversions on arithmetic kinds, pointer arithmetic
`int* + int = int*` (and commuted), ill-formed otherwise. -/
def plus_sem : Kind → Kind → Option Kind
  | .kint, .kint => some .kint
  | .kint, .kdouble => some .kdouble
  | .kdouble, .kint => some .kdouble
  | .kdouble, .kdouble => some .kdouble
  | .kbool, .kbool => some .kint
  | .kbool, .kint => some .kint
  | .kint, .kbool => some .kint
  | .ptr_int, .kint => some .ptr_int
  | .kint, .ptr_int => some .ptr_int
  | .ptr_const_int, .kint => some .ptr_const_int
  | .kint, .ptr_const_int => some .ptr_const_int
  | _, _ => none

/-- Wrap a call operator result computation `call_t` (target kind and
argument kinds to result kind) as a detection-engine operation over the
flattened kind list `T, Args...`. -/
def call_op (callSem : Kind → List Kind → Option Kind) : OpKind :=
  fun args =>
    match args with
    | t :: rest => callSem t rest
    | [] => none

/-- Embedding of `fxx::meta::has_op_call` of the detection-based meta/op.h:
`is_detected<call_t, T, Args...>`. -/
def has_op_call (callSem : Kind → List Kind → Option Kind)
    (t : Kind) (args : List Kind) : Bool :=
  is_detected (call_op callSem) (t :: args)

/-- Embedding of `fxx::meta::detail::op_call_impl` (and the alias `op_call =
op_call_impl<std::tuple<Target, Args...>, void>`) of the `operator_info`
variant of meta/op.h, as the pair (`is_detected`, `argument_count`).  The
partial specialization is
`op_call_impl<std::tuple<Target, Args...>, call_t<Target, Args...>>`, so it
is selected exactly when `call_t<Target, Args...>` is well-formed AND equal
to the `void` passed by the alias; it then inherits `operator_info`
(`is_detected = true`) with `argument_count = sizeof...(Args)`.  In every
other case the primary template inherits `operator_base`
(`is_detected = false`) with `argument_count` the size of
`tuple_skip_t<1, Ops>`, again the number of argument kinds. -/
def op_call_impl (callSem : Kind → List Kind → Option Kind)
    (target : Kind) (args : List Kind) : Bool × Nat :=
  match callSem target args with
  | some r => if r == Kind.kvoid then (true, args.length) else (false, args.length)
  | none => (false, args.length)

/-- A concrete `call_t` environment: `fn_int` is callable with no arguments
returning `int`, `fn_void` is callable with no arguments returning `void`,
every other call expression is ill-formed. -/
def callSem0 : Kind → List Kind → Option Kind
  | .fn_int, [] => some .kint
  | .fn_void, [] => some .kvoid
  | _, _ => none

/-! ## Spec-side comparison functions

These two definitions transcribe the spec's words (not the code) and are
used only on the right-hand side of refinement statements. -/

/-- Spec-side first-match search, from the spec's words: left-to-right scan
returning the index of the first element satisfying the predicate, no match
on the empty sequence. -/
def spec_first {α : Type _} (pred : α → Bool) : List α → Option Nat
  | [] => none
  | x :: xs => if pred x then some 0 else (spec_first pred xs).map (· + 1)

/-! ## Supporting lemmas -/

/-- Concatenating exactly two tuples appends their element lists. -/
theorem tuple_cat_impl_pair {α : Type _} (a b : List α) :
    tuple_cat_impl [a, b] = a ++ b := by
  rw [tuple_cat_impl, tuple_cat_impl]

/-- The type-level flip is list reversal. -/
theorem tuple_flip_impl_eq_reverse {α : Type _} (l : List α) :
    tuple_flip_impl l = l.reverse := by
  induction l with
  | nil => rfl
  | cons h t ih =>
    rw [tuple_flip_impl, tuple_cat_impl_pair, ih, List.reverse_cons]

/-- The value-level flip recursion at `n` yields the reversed `n`-element
prefix. -/
theorem flip_go_eq_reverse_take {α : Type _} (es : List α) :
    ∀ n, n ≤ es.length → flip_go es n = some ((es.take n).reverse) := by
  intro n
  induction n with
  | zero => intro _; rfl
  | succ m ih =>
    intro hle
    have hm : m < es.length := Nat.lt_of_succ_le hle
    rw [flip_go, List.getElem?_eq_getElem hm, ih (Nat.le_of_lt hm)]
    have htake : es.take (m + 1) = es.take m ++ [es[m]] := by
      rw [List.take_succ, List.getElem?_eq_getElem hm, Option.toList_some]
    rw [htake, List.reverse_append, List.reverse_singleton, List.singleton_append]

/-- The value-level flip of a whole tuple is list reversal. -/
theorem flip_f_eq_reverse {α : Type _} (es : List α) :
    flip_f es = some es.reverse := by
  rw [flip_f, flip_go_eq_reverse_take es es.length (Nat.le_refl _), List.take_length]

/-- Mapping a function over the elements commutes with the value-level pick:
the picked positions are looked up in the mapped list. -/
theorem pick_f_map {α β : Type _} (f : α → β) :
    ∀ (ns : List Nat) (es : List α),
      Option.map (List.map f) (pick_f ns es) = pick_f ns (es.map f) := by
  intro ns
  induction ns with
  | nil => intro es; rfl
  | cons h t ih =>
    intro es
    rw [pick_f, pick_f, List.getElem?_map f es h, ← ih es]
    cases es[h]? with
    | none => cases pick_f t es <;> rfl
    | some e => cases pick_f t es <;> rfl

/-- The value-level pick and the type-level pick compute the same selection
(up to the singleton-concatenation of the type-level recursion). -/
theorem tuple_pick_impl_eq_pick_f {α : Type _} (ks : List α) :
    ∀ ns, tuple_pick_impl ks ns = pick_f ns ks := by
  intro ns
  induction ns with
  | nil => rfl
  | cons h t ih =>
    rw [tuple_pick_impl, pick_f, ih]
    cases ks[h]? with
    | none => rfl
    | some e =>
      cases pick_f t ks with
      | none => rfl
      | some rest => simp [tuple_cat_impl_pair]

/-! ## Claims -/

/-- C1: for every input tuple, the element-kind sequence of the tuple
returned by the value-level `flip_f` equals `tuple_flip_t` of the input's
kind sequence, and for every index list `Ns` the element-kind sequence of
the `pick_f<Ns...>` result equals `tuple_pick_t<T, Ns...>` of the input's
kind sequence (both sides ill-formed together on invalid indices). -/
theorem flip_pick_value_type_agreement :
    (∀ es : List Elem,
        Option.map (List.map Elem.kind) (flip_f es)
          = some (tuple_flip_impl (es.map Elem.kind)))
    ∧ (∀ (ns : List Nat) (es : List Elem),
        Option.map (List.map Elem.kind) (pick_f ns es)
          = tuple_pick_impl (es.map Elem.kind) ns) := by
  constructor
  · intro es
    rw [flip_f_eq_reverse, tuple_flip_impl_eq_reverse, Option.map_some']
    rw [List.map_reverse]
  · intro ns es
    rw [tuple_pick_impl_eq_pick_f]
    exact pick_f_map Elem.kind ns es

/-- C2: picking a reference element preserves its ownership category and
storage identity; picking index `i` twice yields two occurrences of the
very same reference descriptor, both aliasing the one storage address of
the original element. -/
theorem pick_preserves_reference_identity :
    ∀ (es : List Elem) (i : Nat), i < es.length →
      (es.getD i default).isRef = true →
      pick_f [i, i] es = some [es.getD i default, es.getD i default]
      ∧ (es.getD i default).addr.isSome = true
      ∧ Option.map (List.map Elem.addr) (pick_f [i, i] es)
          = some [(es.getD i default).addr, (es.getD i default).addr] := by
  intro es i h href
  have hg : es[i]? = some (es.getD i default) := by
    rw [List.getD_eq_getElem es default h, List.getElem?_eq_getElem h]
  have hpick : pick_f [i, i] es = some [es.getD i default, es.getD i default] := by
    simp only [pick_f, hg]
  have hsome : (es.getD i default).addr.isSome = true := by
    cases hcase : es.getD i default with
    | owned v => rw [hcase] at href; simp [Elem.isRef] at href
    | mref a => rfl
    | tref a => rfl
  refine ⟨hpick, hsome, ?_⟩
  rw [hpick, Option.map_some']
  simp only [List.map_cons, List.map_nil]

/-- Witness for the reference-identity theorem at the concrete tuple
`(owned 7, mref @42)` and picked index `1`: both picked occurrences carry
the storage address `42` of the original element. -/
theorem pick_preserves_reference_identity_witness :
    (1 < ([Elem.owned 7, Elem.mref 42] : List Elem).length
      ∧ (([Elem.owned 7, Elem.mref 42] : List Elem).getD 1 default).isRef = true)
    ∧ (pick_f [1, 1] [Elem.owned 7, Elem.mref 42]
          = some [([Elem.owned 7, Elem.mref 42] : List Elem).getD 1 default,
                  ([Elem.owned 7, Elem.mref 42] : List Elem).getD 1 default]
        ∧ (([Elem.owned 7, Elem.mref 42] : List Elem).getD 1 default).addr.isSome = true
        ∧ Option.map (List.map Elem.addr) (pick_f [1, 1] [Elem.owned 7, Elem.mref 42])
            = some [(([Elem.owned 7, Elem.mref 42] : List Elem).getD 1 default).addr,
                    (([Elem.owned 7, Elem.mref 42] : List Elem).getD 1 default).addr])
    ∧ (([Elem.owned 7, Elem.mref 42] : List Elem).getD 1 default).addr = some 42 :=
  ⟨⟨by decide, by decide⟩,
    pick_preserves_reference_identity [Elem.owned 7, Elem.mref 42] 1
      (by decide) (by decide),
    by decide⟩

/-- The value-level reduction at `n + 1` elements is the left fold of the
first `n` tail elements onto the head. -/
theorem reduce_impl_take {α : Type _} (fn : α → α → α) (x : α) (xs : List α) :
    ∀ n, n ≤ xs.length →
      reduce_impl fn (x :: xs) (n + 1) = some ((xs.take n).foldl fn x) := by
  intro n
  induction n with
  | zero =>
    intro _
    simp only [Nat.zero_add, reduce_impl, List.getElem?_cons_zero, List.take_zero,
      List.foldl_nil]
  | succ m ih =>
    intro hle
    have hm : m < xs.length := Nat.lt_of_succ_le hle
    have hx : (x :: xs)[m + 1]? = some xs[m] := by
      rw [List.getElem?_cons_succ, List.getElem?_eq_getElem hm]
    rw [reduce_impl, ih (Nat.le_of_lt hm), hx]
    have htake : xs.take (m + 1) = xs.take m ++ [xs[m]] := by
      rw [List.take_succ, List.getElem?_eq_getElem hm, Option.toList_some]
    rw [htake, List.foldl_append, List.foldl_cons, List.foldl_nil]

/-- The type-level and value-level reduction recursions coincide. -/
theorem tuple_reduce_impl_eq_reduce_impl {α : Type _} (fn : α → α → α) (ks : List α) :
    ∀ n, tuple_reduce_impl fn ks n = reduce_impl fn ks n
  | 0 => rfl
  | 1 => rfl
  | n + 2 => by
    rw [tuple_reduce_impl, reduce_impl,
      tuple_reduce_impl_eq_reduce_impl fn ks (n + 1)]

/-- The value-level fold at `n` elements is the left fold of the first `n`
elements onto the seed. -/
theorem fold_impl_take {α β : Type _} (fn : β → α → β) (init : β) (t : List α) :
    ∀ n, n ≤ t.length →
      fold_impl fn init t n = some ((t.take n).foldl fn init) := by
  intro n
  induction n with
  | zero => intro _; rfl
  | succ m ih =>
    intro hle
    have hm : m < t.length := Nat.lt_of_succ_le hle
    rw [fold_impl, ih (Nat.le_of_lt hm), List.getElem?_eq_getElem hm]
    have htake : t.take (m + 1) = t.take m ++ [t[m]] := by
      rw [List.take_succ, List.getElem?_eq_getElem hm, Option.toList_some]
    rw [htake, List.foldl_append, List.foldl_cons, List.foldl_nil]

/-- C3: `reduce(fn, seq)` is the left-associative combination
`fn(fn(fn(seq[0], seq[1]), seq[2]), ...)` on every sequence of length at
least one; a 1-sequence is returned verbatim for every `fn` (so `fn` is
never consulted); `reduce` with integer subtraction over `(1, 2, 3)` is
`-4`; and the type-level `tuple_reduce_t` computes the same left fold. -/
theorem reduce_left_assoc_spec :
    (∀ (α : Type) (fn : α → α → α) (x : α) (xs : List α),
        reduce_f fn (x :: xs) = some (xs.foldl fn x))
    ∧ (∀ (α : Type) (fn : α → α → α) (x : α), reduce_f fn [x] = some x)
    ∧ reduce_f (fun a b => a - b) ([1, 2, 3] : List Int) = some (-4)
    ∧ (∀ (α : Type) (fn : α → α → α) (x : α) (xs : List α),
        tuple_reduce_t fn (x :: xs) = some (xs.foldl fn x))
    ∧ (∀ (α : Type) (fn : α → α → α) (x : α), tuple_reduce_t fn [x] = some x) := by
  have hval : ∀ (α : Type) (fn : α → α → α) (x : α) (xs : List α),
      reduce_f fn (x :: xs) = some (xs.foldl fn x) := by
    intro α fn x xs
    rw [reduce_f, List.length_cons, reduce_impl_take fn x xs xs.length (Nat.le_refl _),
      List.take_length]
  have htyp : ∀ (α : Type) (fn : α → α → α) (x : α) (xs : List α),
      tuple_reduce_t fn (x :: xs) = some (xs.foldl fn x) := by
    intro α fn x xs
    rw [tuple_reduce_t, tuple_reduce_impl_eq_reduce_impl, ← reduce_f, hval]
  exact ⟨hval, fun α fn x => hval α fn x [], by decide, htyp, fun α fn x => htyp α fn x []⟩

/-- C4: `fold(fn, init, S)` equals `reduce(fn, concat(make(init), S))` at
the value level; folding the empty sequence returns `init` for every `fn`
(so `fn` is never called); and `tuple_fold_t` is `tuple_reduce_t` of the
concatenation `tuple_cat_t<std::tuple<Init>, Tuple>`, with the same empty
case. -/
theorem fold_eq_reduce_of_cons :
    (∀ (α : Type) (fn : α → α → α) (init : α) (t : List α),
        fold_f fn init t = reduce_f fn ([init] ++ t))
    ∧ (∀ (α : Type) (fn : α → α → α) (init : α), fold_f fn init [] = some init)
    ∧ (∀ (α : Type) (fn : α → α → α) (init : α) (ks : List α),
        tuple_fold_t fn init ks = tuple_reduce_t fn ([init] ++ ks))
    ∧ (∀ (α : Type) (fn : α → α → α) (init : α),
        tuple_fold_t fn init [] = some init) := by
  have hfold : ∀ (α : Type) (fn : α → α → α) (init : α) (t : List α),
      fold_f fn init t = some (t.foldl fn init) := by
    intro α fn init t
    rw [fold_f, fold_impl_take fn init t t.length (Nat.le_refl _), List.take_length]
  have hrel : ∀ (α : Type) (fn : α → α → α) (init : α) (t : List α),
      fold_f fn init t = reduce_f fn ([init] ++ t) := by
    intro α fn init t
    rw [hfold, List.singleton_append, reduce_f, List.length_cons,
      reduce_impl_take fn init t t.length (Nat.le_refl _), List.take_length]
  have hcat : ∀ (α : Type) (fn : α → α → α) (init : α) (ks : List α),
      tuple_fold_t fn init ks = tuple_reduce_t fn ([init] ++ ks) := by
    intro α fn init ks
    rw [tuple_fold_t, tuple_cat_impl_pair]
  refine ⟨hrel, fun α fn init => hrel α fn init [], hcat, ?_⟩
  intro α fn init
  rw [hcat, List.append_nil]
  rfl

/-- The shifted index range of indices.h is the contiguous range starting
at `s`. -/
theorem make_index_range_eq_range' (s l : Nat) :
    make_index_range s l = List.range' s l := by
  rw [make_index_range, shift_index_sequence_t, map_index_sequence_t,
    List.range'_eq_map_range]
  apply List.map_congr_left
  intro x _
  exact Nat.add_comm x s

/-- Picking a contiguous in-bounds index range extracts the corresponding
sub-range of elements. -/
theorem pick_f_range' {α : Type _} (es : List α) :
    ∀ (l s : Nat), s + l ≤ es.length →
      pick_f (List.range' s l) es = some ((es.drop s).take l) := by
  intro l
  induction l with
  | zero =>
    intro s _
    rw [List.range'_zero, List.take_zero]
    rfl
  | succ m ih =>
    intro s hle
    have hs : s < es.length := by omega
    rw [List.range'_succ, pick_f, List.getElem?_eq_getElem hs, ih (s + 1) (by omega)]
    rw [List.drop_eq_getElem_cons hs, List.take_succ_cons]

/-- The value-level skip of an in-bounds count drops a prefix. -/
theorem skip_f_eq_drop {α : Type _} (s : Nat) (es : List α) (h : s ≤ es.length) :
    skip_f s es = some (es.drop s) := by
  rw [skip_f, apply_index_sequence_pick, make_index_range_eq_range',
    pick_f_range' es (es.length - s) s (by omega)]
  rw [← List.length_drop s es, List.take_length]

/-- The value-level take of an in-bounds count keeps a prefix. -/
theorem take_f_eq_take {α : Type _} (n : Nat) (es : List α) (h : n ≤ es.length) :
    take_f n es = some (es.take n) := by
  rw [take_f, apply_index_sequence_pick, List.range_eq_range',
    pick_f_range' es n 0 (by omega), List.drop_zero]

/-- The value-level slice of an in-bounds range extracts the sub-range. -/
theorem slice_f_eq_drop_take {α : Type _} (s l : Nat) (es : List α)
    (h : s + l ≤ es.length) :
    slice_f s l es = some ((es.drop s).take l) := by
  rw [slice_f, apply_index_sequence_pick, make_index_range_eq_range',
    pick_f_range' es l s h]

/-- The type-level skip of an in-bounds count drops a prefix. -/
theorem tuple_skip_impl_eq_drop {α : Type _} :
    ∀ (s : Nat) (ks : List α), s ≤ ks.length →
      tuple_skip_impl s ks = some (ks.drop s) := by
  intro s
  induction s with
  | zero => intro ks _; rw [List.drop_zero]; rfl
  | succ m ih =>
    intro ks hle
    cases ks with
    | nil => simp at hle
    | cons k kt =>
      rw [tuple_skip_impl, List.drop_succ_cons]
      simp only [tuple_skip_one]
      exact ih kt (by simpa using hle)

/-- The type-level take of an in-bounds count keeps a prefix. -/
theorem tuple_take_impl_eq_take {α : Type _} :
    ∀ (n : Nat) (ks : List α), n ≤ ks.length →
      tuple_take_impl n ks = some (ks.take n) := by
  intro n
  induction n with
  | zero => intro ks _; rw [List.take_zero]; rfl
  | succ m ih =>
    intro ks hle
    cases ks with
    | nil => simp at hle
    | cons k kt =>
      rw [tuple_take_impl, List.take_succ_cons]
      simp only [tuple_take_one, tuple_skip_one]
      rw [ih kt (by simpa using hle)]
      simp only [tuple_cat_impl_pair, List.singleton_append]

/-- C5: for every in-bounds `start` and `len`, slicing equals taking `len`
from the result of skipping `start` — at the type level (`tuple_slice_t` /
`tuple_take_t` / `tuple_skip_t`) and at the value level (`slice_f` /
`take_f` / `skip_f`, all built from an index range and `pick_f`) — and a
zero-length slice is empty regardless of `start`. -/
theorem slice_eq_take_skip :
    (∀ (α : Type) (ks : List α) (start len : Nat), start + len ≤ ks.length →
        tuple_skip_impl start ks = some (ks.drop start)
        ∧ tuple_take_impl len (ks.drop start) = some ((ks.drop start).take len)
        ∧ tuple_slice_t start len ks = some ((ks.drop start).take len))
    ∧ (∀ (α : Type) (ks : List α) (start : Nat), start ≤ ks.length →
        tuple_slice_t start 0 ks = some [])
    ∧ (∀ (α : Type) (es : List α) (start len : Nat), start + len ≤ es.length →
        skip_f start es = some (es.drop start)
        ∧ take_f len (es.drop start) = some ((es.drop start).take len)
        ∧ slice_f start len es = some ((es.drop start).take len))
    ∧ (∀ (α : Type) (es : List α) (start : Nat), slice_f start 0 es = some []) := by
  have htyp : ∀ (α : Type) (ks : List α) (start len : Nat), start + len ≤ ks.length →
      tuple_skip_impl start ks = some (ks.drop start)
      ∧ tuple_take_impl len (ks.drop start) = some ((ks.drop start).take len)
      ∧ tuple_slice_t start len ks = some ((ks.drop start).take len) := by
    intro α ks start len hle
    have hskip := tuple_skip_impl_eq_drop start ks (by omega)
    have htake := tuple_take_impl_eq_take len (ks.drop start)
      (by rw [List.length_drop]; omega)
    refine ⟨hskip, htake, ?_⟩
    rw [tuple_slice_t, hskip]
    simp only [htake]
  refine ⟨htyp, ?_, ?_, ?_⟩
  · intro α ks start hle
    have h := (htyp α ks start 0 (by omega)).2.2
    rw [h, List.take_zero]
  · intro α es start len hle
    exact ⟨skip_f_eq_drop start es (by omega),
      take_f_eq_take len (es.drop start) (by rw [List.length_drop]; omega),
      slice_f_eq_drop_take start len es hle⟩
  · intro α es start
    rfl

/-- Witness for the slice composition law at the tuple `(10, 20, 30)` with
`start = 1`, `len = 1`, at both levels. -/
theorem slice_eq_take_skip_witness :
    (1 + 1 ≤ ([10, 20, 30] : List Nat).length
      ∧ tuple_slice_t 1 1 ([10, 20, 30] : List Nat)
          = some ((([10, 20, 30] : List Nat).drop 1).take 1)
      ∧ slice_f 1 1 ([10, 20, 30] : List Nat)
          = some ((([10, 20, 30] : List Nat).drop 1).take 1))
    ∧ ((([10, 20, 30] : List Nat).drop 1).take 1 = [20]) :=
  ⟨⟨by decide,
    (slice_eq_take_skip.1 Nat [10, 20, 30] 1 1 (by decide)).2.2,
    (slice_eq_take_skip.2.2.1 Nat [10, 20, 30] 1 1 (by decide)).2.2⟩,
   by decide⟩

/-- Unfolding equation of the search recursion. -/
theorem first_impl_unfold {α : Type _} (pred : α → Bool) (es : List α) (off : Nat) :
    first_impl pred es off =
      if h : es.length ≤ off then FirstRet.nulloptT
      else if pred (es.get ⟨off, Nat.lt_of_not_le h⟩) then FirstRet.opt (some off)
      else FirstRet.opt (first_impl pred es (off + 1)).toOptional := by
  rw [first_impl]

/-- Past the end of the tuple the search returns the `std::nullopt_t`-typed
result. -/
theorem first_impl_of_le {α : Type _} (pred : α → Bool) (es : List α) (off : Nat)
    (h : es.length ≤ off) : first_impl pred es off = FirstRet.nulloptT := by
  rw [first_impl_unfold, dif_pos h]

/-- Within the tuple the search returns an `std::optional`-typed result. -/
theorem first_impl_of_lt {α : Type _} (pred : α → Bool) (es : List α) (off : Nat)
    (h : off < es.length) : ∃ o : Option Nat, first_impl pred es off = FirstRet.opt o := by
  rw [first_impl_unfold, dif_neg (Nat.not_le_of_lt h)]
  by_cases hp : pred (es.get ⟨off, h⟩)
  · exact ⟨some off, by rw [if_pos hp]⟩
  · exact ⟨(first_impl pred es (off + 1)).toOptional, by rw [if_neg hp]⟩

/-- The optional content of the search from offset `off` is the first-match
index of the dropped suffix, shifted back by `off`. -/
theorem first_impl_toOptional {α : Type _} (pred : α → Bool) (es : List α) :
    ∀ off, (first_impl pred es off).toOptional
      = (spec_first pred (es.drop off)).map (· + off) := by
  suffices h : ∀ fuel off, es.length - off ≤ fuel →
      (first_impl pred es off).toOptional
        = (spec_first pred (es.drop off)).map (· + off) by
    intro off
    exact h es.length off (by omega)
  intro fuel
  induction fuel with
  | zero =>
    intro off hfuel
    have hlen : es.length ≤ off := by omega
    rw [first_impl_of_le pred es off hlen, List.drop_eq_nil_of_le hlen]
    rfl
  | succ m ih =>
    intro off hfuel
    by_cases hlen : es.length ≤ off
    · rw [first_impl_of_le pred es off hlen, List.drop_eq_nil_of_le hlen]
      rfl
    · have hoff : off < es.length := Nat.lt_of_not_le hlen
      rw [first_impl_unfold, dif_neg hlen]
      rw [List.drop_eq_getElem_cons hoff, spec_first]
      simp only [List.get_eq_getElem]
      by_cases hp : pred es[off]
      · rw [if_pos hp, if_pos hp, Option.map_some']
        simp [FirstRet.toOptional]
      · rw [if_neg hp, if_neg hp]
        show (first_impl pred es (off + 1)).toOptional = _
        rw [ih (off + 1) (by omega), Option.map_map]
        apply congrArg (fun f => Option.map f (spec_first pred (es.drop (off + 1))))
        funext x
        show x + (off + 1) = (x + 1) + off
        omega

/-- The spec-side search finds nothing exactly when no element matches. -/
theorem spec_first_eq_none {α : Type _} (pred : α → Bool) :
    ∀ es : List α, (spec_first pred es = none ↔ ∀ x ∈ es, pred x = false) := by
  intro es
  induction es with
  | nil => simp [spec_first]
  | cons x xs ih =>
    rw [spec_first]
    by_cases hp : pred x
    · simp [hp]
    · simp [hp, Option.map_eq_none', ih]

/-- An index found by the spec-side search is in bounds, matches, and every
earlier position fails the predicate. -/
theorem spec_first_eq_some {α : Type _} (pred : α → Bool) (d : α) :
    ∀ (es : List α) (i : Nat), spec_first pred es = some i →
      i < es.length ∧ pred (es.getD i d) = true
        ∧ (es.take i).all (fun x => !pred x) = true := by
  intro es
  induction es with
  | nil => intro i h; simp [spec_first] at h
  | cons x xs ih =>
    intro i h
    rw [spec_first] at h
    by_cases hp : pred x
    · rw [if_pos hp] at h
      obtain rfl : (0 : Nat) = i := Option.some.inj h
      exact ⟨Nat.succ_pos _, by simpa [List.getD_cons_zero] using hp, by simp⟩
    · rw [if_neg hp] at h
      obtain ⟨i', hsp, rfl⟩ := Option.map_eq_some'.mp h
      obtain ⟨h1, h2, h3⟩ := ih i' hsp
      refine ⟨by simpa using Nat.succ_lt_succ h1, ?_, ?_⟩
      · simpa [List.getD_cons_succ] using h2
      · rw [List.take_succ_cons, List.all_cons, h3, Bool.and_true]
        simp [hp]

/-- C9: `first(pred, empty)` is no match, and the value-level `find(v, S)`
returns the smallest index whose element equals `v` (every returned index is
in bounds, its element equals `v`, and all elements before it differ from
`v`), or no match exactly when no element of `S` equals `v`. -/
theorem find_smallest_index_law :
    (∀ (α : Type) (pred : α → Bool), first_f pred ([] : List α) = FirstRet.nulloptT)
    ∧ (∀ (α : Type) [inst : DecidableEq α] (v : α) (es : List α) (i : Nat),
        (find_f v es).toOptional = some i →
          i < es.length ∧ es.getD i v = v
            ∧ (es.take i).all (fun x => !(v == x)) = true)
    ∧ (∀ (α : Type) [inst : DecidableEq α] (v : α) (es : List α),
        ((find_f v es).toOptional = none ↔ ∀ x ∈ es, x ≠ v)) := by
  have hfind : ∀ (α : Type) [inst : DecidableEq α] (v : α) (es : List α),
      (find_f v es).toOptional = spec_first (fun x => v == x) es := by
    intro α _ v es
    rw [find_f, first_f, first_impl_toOptional, List.drop_zero]
    simp
  refine ⟨?_, ?_, ?_⟩
  · intro α pred
    exact first_impl_of_le pred [] 0 (Nat.le_refl 0)
  · intro α inst v es i h
    rw [hfind] at h
    obtain ⟨h1, h2, h3⟩ := spec_first_eq_some (fun x => v == x) v es i h
    exact ⟨h1, (beq_iff_eq.mp h2).symm, h3⟩
  · intro α inst v es
    rw [hfind, spec_first_eq_none]
    constructor
    · intro h x hx
      exact fun hxv => by simpa [hxv] using h x hx
    · intro h x hx
      have := h x hx
      simp only [beq_eq_false_iff_ne, ne_eq]
      exact fun hvx => this hvx.symm

/-- Witness for the search law: `find(3, (1, 2, 3))` yields index `2`, which
is in bounds, matches, and is preceded only by non-matching elements. -/
theorem find_smallest_index_law_witness :
    (find_f (3 : Int) [1, 2, 3]).toOptional = some 2
    ∧ (2 < ([1, 2, 3] : List Int).length
        ∧ ([1, 2, 3] : List Int).getD 2 3 = 3
        ∧ (([1, 2, 3] : List Int).take 2).all (fun x => !((3 : Int) == x)) = true) :=
  have heval : (find_f (3 : Int) [1, 2, 3]).toOptional = some 2 := by
    simp [find_f, first_f, first_impl, FirstRet.toOptional]
  ⟨heval, find_smallest_index_law.2.1 Int 3 [1, 2, 3] 2 heval⟩

/-- C10: the static result of the value-level `first` and `find` depends on
whether the input tuple is empty: on the 0-tuple both return the
`std::nullopt_t`-typed result (which can never hold an index), while on any
non-empty tuple both return an `std::optional<std::size_t>`, disengaged
exactly when nothing matches. -/
theorem first_find_result_type_shape :
    (∀ (α : Type) (pred : α → Bool), first_f pred ([] : List α) = FirstRet.nulloptT)
    ∧ (∀ (α : Type) [inst : DecidableEq α] (v : α),
        find_f v ([] : List α) = FirstRet.nulloptT)
    ∧ (∀ (α : Type) (pred : α → Bool) (x : α) (xs : List α),
        ∃ o : Option Nat, first_f pred (x :: xs) = FirstRet.opt o)
    ∧ (∀ (α : Type) [inst : DecidableEq α] (v x : α) (xs : List α),
        ∃ o : Option Nat, find_f v (x :: xs) = FirstRet.opt o)
    ∧ (∀ (α : Type) (pred : α → Bool) (x : α) (xs : List α),
        (first_f pred (x :: xs) = FirstRet.opt none ↔ ∀ y ∈ x :: xs, pred y = false)) := by
  have hne : ∀ (α : Type) (pred : α → Bool) (x : α) (xs : List α),
      ∃ o : Option Nat, first_f pred (x :: xs) = FirstRet.opt o := by
    intro α pred x xs
    exact first_impl_of_lt pred (x :: xs) 0 (Nat.succ_pos _)
  refine ⟨?_, ?_, hne, ?_, ?_⟩
  · intro α pred
    exact first_impl_of_le pred [] 0 (Nat.le_refl 0)
  · intro α inst v
    exact first_impl_of_le (fun x => v == x) [] 0 (Nat.le_refl 0)
  · intro α inst v x xs
    exact hne α (fun y => v == y) x xs
  · intro α pred x xs
    obtain ⟨o, ho⟩ := hne α pred x xs
    have hopt : (first_f pred (x :: xs)).toOptional = spec_first pred (x :: xs) := by
      rw [first_f, first_impl_toOptional, List.drop_zero]
      simp
    rw [ho] at hopt ⊢
    have : o = spec_first pred (x :: xs) := hopt
    rw [this]
    constructor
    · intro h
      exact (spec_first_eq_none pred (x :: xs)).mp (by
        have := congrArg FirstRet.toOptional h
        simpa [FirstRet.toOptional] using this)
    · intro h
      rw [(spec_first_eq_none pred (x :: xs)).mpr h]

/-- Witness for the result-type-shape theorem: on the empty tuple a
concrete `first` call returns the `std::nullopt_t` value, and on `(1, 2)`
with an unsatisfiable predicate it returns a disengaged optional. -/
theorem first_find_result_type_shape_witness :
    first_f (fun x : Int => decide (x > 5)) [] = FirstRet.nulloptT
    ∧ first_f (fun x : Int => decide (x > 5)) [1, 2] = FirstRet.opt none :=
  ⟨first_find_result_type_shape.1 Int (fun x : Int => decide (x > 5)),
    (first_find_result_type_shape.2.2.2.2 Int (fun x : Int => decide (x > 5)) 1 [2]).mpr
      (by decide)⟩

/-- C6: for every operation and argument kinds, `is_detected` is true
exactly when the instantiation is well-formed, and `detected_or_t` yields
the instantiation's result kind when well-formed and the default otherwise;
an ill-formed query is an observable false/default outcome of these total
functions, never an error. -/
theorem detection_well_formedness_iff :
    (∀ (op : OpKind) (args : List Kind),
        (is_detected op args = true ↔ ∃ r : Kind, op args = some r))
    ∧ (∀ (dflt : Kind) (op : OpKind) (args : List Kind) (r : Kind),
        op args = some r → detected_or_t dflt op args = r)
    ∧ (∀ (dflt : Kind) (op : OpKind) (args : List Kind),
        op args = none → detected_or_t dflt op args = dflt) := by
  refine ⟨?_, ?_, ?_⟩
  · intro op args
    rw [is_detected, detect_impl]
    cases h : op args with
    | none => simp [h]
    | some r => simp [h]
  · intro dflt op args r h
    rw [detected_or_t, detect_impl, h]
  · intro dflt op args h
    rw [detected_or_t, detect_impl, h]

/-- Witness for the detection-engine queries at the concrete operation
`plus_t` on `(int, int)`: detected, with result kind `int` rather than the
default. -/
theorem detection_well_formedness_iff_witness :
    binop_op plus_sem [Kind.kint, Kind.kint] = some Kind.kint
    ∧ detected_or_t Kind.nonesuch (binop_op plus_sem) [Kind.kint, Kind.kint] = Kind.kint
    ∧ is_detected (binop_op plus_sem) [Kind.kint, Kind.kint] = true :=
  ⟨rfl,
    detection_well_formedness_iff.2.1 Kind.nonesuch (binop_op plus_sem)
      [Kind.kint, Kind.kint] Kind.kint rfl,
    (detection_well_formedness_iff.1 (binop_op plus_sem) [Kind.kint, Kind.kint]).mpr
      ⟨Kind.kint, rfl⟩⟩

/-- C7 (evaluation at the failing input): for `operator+` on
`(int*, int)` — well-formed with result kind `int*`, which converts to
`void*` — the detection-based catalog's `has_op_convertible_plus<void*,
int*, int>` answers true as the claim states, but the
`operator_info`-variant trait member `is_convertible<void*>` answers false,
because its body swaps the arguments of `std::is_convertible_v` (it tests
`void* → int*` instead of `int* → void*`); the nothrow member diverges the
same way. -/
theorem op_convertible_member_reversed :
    plus_sem Kind.ptr_int Kind.kint = some Kind.ptr_int
    ∧ conv Kind.ptr_int Kind.ptr_void = true
    ∧ has_op_convertible_binop plus_sem Kind.ptr_void Kind.ptr_int Kind.kint = true
    ∧ op_trait_is_convertible plus_sem Kind.ptr_int Kind.kint Kind.ptr_void = false
    ∧ nconv Kind.ptr_int Kind.ptr_void = true
    ∧ has_op_nothrow_convertible_binop plus_sem Kind.ptr_void Kind.ptr_int Kind.kint = true
    ∧ op_trait_is_nothrow_convertible plus_sem Kind.ptr_int Kind.kint Kind.ptr_void = false :=
  ⟨rfl, rfl, rfl, rfl, rfl, rfl, rfl⟩

/-- C8 (evaluation at the failing input): calling a target whose
`operator()` is well-formed with result kind `int` is detected by the
detection-based `has_op_call`, but the `op_call_impl` trait reports
`is_detected = false` for it — its partial specialization passes
`call_t<Target, Args...>` where the `std::void_t` pattern was required, so
it matches only calls whose result type is exactly `void` (for which it
does report true); its argument count, in both the matched and the
fallback case, does equal the number of argument kinds supplied. -/
theorem op_call_detection_void_only :
    callSem0 Kind.fn_int [] = some Kind.kint
    ∧ has_op_call callSem0 Kind.fn_int [] = true
    ∧ (op_call_impl callSem0 Kind.fn_int []).1 = false
    ∧ (op_call_impl callSem0 Kind.fn_void []).1 = true
    ∧ ∀ (callSem : Kind → List Kind → Option Kind) (t : Kind) (args : List Kind),
        (op_call_impl callSem t args).2 = args.length := by
  refine ⟨rfl, rfl, rfl, rfl, ?_⟩
  intro callSem t args
  rw [op_call_impl]
  cases callSem t args with
  | none => rfl
  | some r =>
    show (if (r == Kind.kvoid) = true then (true, args.length)
      else (false, args.length)).2 = args.length
    by_cases h : (r == Kind.kvoid) = true
    · rw [if_pos h]
    · rw [if_neg h]
